import Mathlib

/-!
Verification of the generation-to-merge pipeline of the `gcode` repository:
the LCS-based unified-diff engine and its tolerant apply
(`src/app/api/gen/route.ts`, harden route), the routing policy
(`decideRoute`), the output-protocol codec (`parseOutputToJson`), the
staged-change store (`applyStagedChanges`), the cosine-similarity recall
query, and the chained-generation fallback.

JavaScript strings are modelled as Lean `String` (a structure over
`List Char`); the JS operations `split('\n')`, `join('\n')`,
`startsWith`, `slice(1)`, `trim()`, `toLowerCase()` and `includes` are
modelled by the `js*` helpers below, which work on the underlying
character lists.
-/

/-- Model of JS `s.split('\n')`: split the character list on `'\n'`. -/
def jsSplitNl (s : String) : List String :=
  (s.data.splitOn '\n').map (fun cs => String.mk cs)

/-- Model of JS `arr.join('\n')`. -/
def jsJoinNl (xs : List String) : String :=
  String.mk (List.intercalate ['\n'] (xs.map String.data))

/-- Model of JS single-character string concatenation `c + s`. -/
def consChar (c : Char) (s : String) : String :=
  String.mk (c :: s.data)

/-- Model of JS `s.startsWith(pre)`. -/
def jsStartsWith (s pre : String) : Bool :=
  pre.data.isPrefixOf s.data

/-- Model of JS `s.slice(1)`. -/
def jsDropOne (s : String) : String :=
  String.mk (s.data.drop 1)

/-- Model of JS `s.trim()`: strip whitespace from both ends. -/
def jsTrim (s : String) : String :=
  String.mk (((s.data.dropWhile Char.isWhitespace).reverse.dropWhile Char.isWhitespace).reverse)

/-- Model of JS `s.toLowerCase()` (the prompts scanned are ASCII). -/
def jsToLower (s : String) : String :=
  String.mk (s.data.map Char.toLower)

/-- Model of JS `s.includes(sub)`: substring occurrence. -/
def strContains (s sub : String) : Bool :=
  decide (sub.data <:+: s.data)

/-! ### Diff engine: `unifiedDiff` (src/app/api/gen/route.ts)

The source fills a DP table with `dp[i][j]` = LCS length of the line
suffixes `oldLines[i:]` and `newLines[j:]`; `lcsLen` is that table's
recurrence expressed on list suffixes directly. -/

/-- LCS length of two line lists, the recurrence of the `dp` table in
`unifiedDiff`: `dp[i][j] = old[i] = new[j] ? dp[i+1][j+1]+1 : max dp[i+1][j] dp[i][j+1]`.
The recursion is driven by a fuel, one unit per visited table cell along
a path, so that the definition is structurally recursive (and hence
kernel-computable); every recursive call shrinks the summed length, so
fuel `xs.length + ys.length` is exact (the fuel-0 case is only reached
with both lists empty, where it agrees with the table). -/
def lcsLenAux : Nat → List String → List String → Nat
  | 0, _, _ => 0
  | _ + 1, [], _ => 0
  | _ + 1, _ :: _, [] => 0
  | fuel + 1, a :: as, b :: bs =>
    if a = b then lcsLenAux fuel as bs + 1
    else max (lcsLenAux fuel as (b :: bs)) (lcsLenAux fuel (a :: as) bs)

/-- `dp[i][j]` of `unifiedDiff`, on the suffixes as lists. -/
def lcsLen (xs ys : List String) : Nat :=
  lcsLenAux (xs.length + ys.length) xs ys

/-- The emission loop of `unifiedDiff`: walk both line lists, emitting
`' '`-prefixed context lines on equality, and otherwise a `'-'` line when
`dp[i+1][j] >= dp[i][j+1]` (the source's tie-break) else a `'+'` line;
the two trailing `while` loops are the one-sided cases.  Fuel-driven for
the same reason as `lcsLenAux`; the branch conditions use the exact
table values `lcsLen`. -/
def diffLinesAux : Nat → List String → List String → List String
  | 0, _, _ => []
  | _ + 1, [], [] => []
  | fuel + 1, [], b :: bs => consChar '+' b :: diffLinesAux fuel [] bs
  | fuel + 1, a :: as, [] => consChar '-' a :: diffLinesAux fuel as []
  | fuel + 1, a :: as, b :: bs =>
    if a = b then consChar ' ' a :: diffLinesAux fuel as bs
    else if lcsLen (a :: as) bs ≤ lcsLen as (b :: bs) then
      consChar '-' a :: diffLinesAux fuel as (b :: bs)
    else
      consChar '+' b :: diffLinesAux fuel (a :: as) bs

/-- The full emitted operation list of `unifiedDiff`. -/
def diffLines (xs ys : List String) : List String :=
  diffLinesAux (xs.length + ys.length) xs ys

/-- `unifiedDiff(oldText, newText)` from src/app/api/gen/route.ts:
split into lines, run the LCS-based emission, join with `'\n'`. -/
def unifiedDiff (oldText newText : String) : String :=
  jsJoinNl (diffLines (jsSplitNl oldText) (jsSplitNl newText))

/-! ### Tolerant apply: `parseUnifiedDiff` / `applyUnifiedDiff`
(src/unnamed/part_001) -/

/-- `parseUnifiedDiff` from src/unnamed/part_001: split the diff text
into lines and drop unified-diff headers. -/
def parseUnifiedDiff (diffText : String) : List String :=
  (jsSplitNl diffText).filter
    (fun line => !(jsStartsWith line "--- ") && !(jsStartsWith line "+++ ") && !(jsStartsWith line "@@"))

/-- The operation loop of `applyUnifiedDiff`: `none` models the early
`return before` taken on a context-line mismatch; the `[]` case appends
the remaining lines of `before` (the trailing `while`). -/
def applyLoop (beforeLines : List String) : List String → Nat → List String → Option (List String)
  | [], i, result => some (result ++ beforeLines.drop i)
  | op :: ops, i, result =>
    if jsStartsWith op " " then
      let expected := jsDropOne op
      if beforeLines[i]? = some expected then
        applyLoop beforeLines ops (i + 1) (result ++ [expected])
      else
        none
    else if jsStartsWith op "-" then
      let toRemove := jsDropOne op
      if beforeLines[i]? = some toRemove then
        applyLoop beforeLines ops (i + 1) result
      else
        applyLoop beforeLines ops i result
    else if jsStartsWith op "+" then
      applyLoop beforeLines ops i (result ++ [jsDropOne op])
    else
      applyLoop beforeLines ops i (result ++ [op])

/-- `applyUnifiedDiff(before, diffText)` from src/unnamed/part_001:
replay the filtered operations against `before`; a context mismatch
aborts and returns `before` unchanged. -/
def applyUnifiedDiff (before diffText : String) : String :=
  match applyLoop (jsSplitNl before) (parseUnifiedDiff diffText) 0 [] with
  | none => before
  | some out => jsJoinNl out

/-! ### Routing policy: `decideRoute` (src/app/api/gen/route.ts) -/

/-- The `Vibe` union type of src/app/api/gen/route.ts (`undefined` is
modelled by `Option`). -/
inductive Vibe where
  | scrappy
  | enterprise
  | dual
deriving DecidableEq

/-- The routing outcome `'grok' | 'claude' | 'dual'`. -/
inductive Route where
  | grok
  | claude
  | dual
deriving DecidableEq

/-- `decideRoute(prompt, vibe, mode)` from src/app/api/gen/route.ts. -/
def decideRoute (prompt : String) (vibe : Option Vibe) (mode : Option String) : Route :=
  let lower := jsToLower prompt
  if mode = some "dual" ∨ vibe = some Vibe.dual then Route.dual
  else if vibe = some Vibe.scrappy then Route.grok
  else if vibe = some Vibe.enterprise then Route.claude
  else if strContains lower "build" || strContains lower "creative" then Route.grok
  else if strContains lower "refine" || strContains lower "harden" then Route.claude
  else Route.grok

/-! ### Staged-change store (src/unnamed/part_003, zustand `useFilesStore`) -/

/-- Which model produced an output (`'grok' | 'claude'`). -/
inductive ModelKind where
  | grok
  | claude
deriving DecidableEq

/-- A staged change `{ path, before, after, modelUsed? }`. -/
structure StagedChange where
  path : String
  before : String
  after : String
  modelUsed : Option ModelKind
deriving DecidableEq

/-- The slice of the zustand store state touched by `applyStagedChanges`:
`files` (a `Record<string, string>`, modelled as a partial map),
`userEdits` (a `Set<string>`, modelled by its element list), `openTabs`,
`activePath` and `stagedChanges`. -/
structure FilesState where
  files : String → Option String
  userEdits : List String
  openTabs : List String
  activePath : Option String
  stagedChanges : List StagedChange

/-- The `for (const change of stagedChanges)` loop of
`applyStagedChanges`: skip (and count) a change whose path is in the
edit set, otherwise write `after` and count it as applied.  The dead
`if (edits.has(change.path)) edits.delete(change.path)` of the source is
kept verbatim in the write branch. -/
def applyStagedLoop : List StagedChange → (String → Option String) → List String → Nat → Nat →
    ((String → Option String) × List String × Nat × Nat)
  | [], files, edits, applied, skipped => (files, edits, applied, skipped)
  | change :: rest, files, edits, applied, skipped =>
    if edits.contains change.path then
      applyStagedLoop rest files edits applied (skipped + 1)
    else
      let files' := fun p => if p = change.path then some change.after else files p
      let edits' := if edits.contains change.path then edits.erase change.path else edits
      applyStagedLoop rest files' edits' (applied + 1) skipped

/-- `applyStagedChanges` from src/unnamed/part_003: run the loop, then
`set({ files: nextFiles, stagedChanges: [], userEdits: edits })` and
return `{ applied, skipped }`. -/
def applyStagedChanges (s : FilesState) : FilesState × Nat × Nat :=
  let r := applyStagedLoop s.stagedChanges s.files s.userEdits 0 0
  ({ s with files := r.1, userEdits := r.2.1, stagedChanges := [] }, r.2.2.1, r.2.2.2)

/-! ### Output-protocol codec: `parseOutputToJson` (src/app/api/gen/route.ts)

The regex `/<file path="([^"]+)">([\s\S]*?)<\/file>/g` is modelled as an
explicit scan: at each position try an anchored match (the literal open
tag, a non-empty maximal run of non-quote characters, the literal `">`,
then the lazily-shortest content up to the first `</file>`); on success
continue after the match, otherwise advance one character.  This is the
behaviour of the JS regex engine on this pattern: the greedy `[^"]+`
cannot backtrack past a quote, and the lazy body stops at the first
close tag. -/

/-- Split a character list around the first occurrence of `pat`:
`some (pre, post)` with `s = pre ++ pat ++ post`, `none` if `pat` does
not occur. -/
def splitFirst (pat : List Char) : List Char → Option (List Char × List Char)
  | [] => if pat = [] then some ([], []) else none
  | c :: rest =>
    if pat.isPrefixOf (c :: rest) then some ([], (c :: rest).drop pat.length)
    else
      match splitFirst pat rest with
      | some (pre, post) => some (c :: pre, post)
      | none => none

/-- The anchored attempt of the file-block regex at the current
position: literal `<file path="`, a non-empty run of non-quote
characters (the path), literal `">`, then content up to the first
`</file>`. -/
def tryMatchFileAt (s : List Char) : Option (String × String × List Char) :=
  if ("<file path=\"".data).isPrefixOf s then
    let rest := s.drop ("<file path=\"".data).length
    let path := rest.takeWhile (fun c => c ≠ '"')
    if path = [] then none
    else
      match rest.dropWhile (fun c => c ≠ '"') with
      | '"' :: '>' :: rest2 =>
        match splitFirst ("</file>".data) rest2 with
        | some (content, remainder) => some (String.mk path, String.mk content, remainder)
        | none => none
      | _ => none
  else none

/-- The global regex scan, driven by a character-count fuel (each step
consumes at least one character, so `s.length` fuel is exact). -/
def extractFileBlocksAux : Nat → List Char → List (String × String)
  | 0, _ => []
  | _, [] => []
  | fuel + 1, c :: rest =>
    match tryMatchFileAt (c :: rest) with
    | some (path, content, remainder) => (path, content) :: extractFileBlocksAux fuel remainder
    | none => extractFileBlocksAux fuel rest

/-- All well-formed `<file path="...">...</file>` blocks of a raw model
output, in order. -/
def extractFileBlocks (s : List Char) : List (String × String) :=
  extractFileBlocksAux s.length s

/-- First match of `/<open>([\s\S]*?)<\/close>/`: content between the
first open tag that has a close tag after it. -/
def extractTagContent (openTag closeTag : List Char) (s : List Char) : Option (List Char) :=
  match splitFirst openTag s with
  | none => none
  | some (_, after) =>
    match splitFirst closeTag after with
    | none => none
    | some (content, _) => some content

/-- A parsed file entry `{ path, content, diff, modelUsed }` (`FileOut`
in src/app/api/gen/route.ts). -/
structure FileOut where
  path : String
  content : String
  diff : Bool
  modelUsed : ModelKind
deriving DecidableEq

/-- The result record of `parseOutputToJson`. -/
structure ParsedOutput where
  files : List FileOut
  explanation : String
  tests : String
deriving DecidableEq

/-- `parseOutputToJson(raw, modelUsed)` from src/app/api/gen/route.ts:
extract `<file>` blocks (contents trimmed); if none were found and the
trimmed raw text is non-empty, fall back to a single file at
`src/App.jsx` holding the whole trimmed text; extract optional
`<explanation>` and `<tests>` bodies, defaulting to the empty string. -/
def parseOutputToJson (raw : String) (modelUsed : ModelKind) : ParsedOutput :=
  let blocks := extractFileBlocks raw.data
  let files := blocks.map (fun pc =>
    { path := pc.1, content := jsTrim pc.2, diff := false, modelUsed := modelUsed : FileOut })
  let files :=
    if files.length = 0 ∧ (jsTrim raw).data.length > 0 then
      [{ path := "src/App.jsx", content := jsTrim raw, diff := false, modelUsed := modelUsed }]
    else files
  let explanation :=
    jsTrim (String.mk ((extractTagContent ("<explanation>".data) ("</explanation>".data) raw.data).getD []))
  let tests :=
    jsTrim (String.mk ((extractTagContent ("<tests>".data) ("</tests>".data) raw.data).getD []))
  { files := files, explanation := explanation, tests := tests }

/-! ### Chained (dual) orchestration (the `else` branch of `POST` in
src/app/api/gen/route.ts) -/

/-- The dual-mode result selection of `POST`: parse the refine (Claude)
output; if it produced at least one file block use it, otherwise fall
back to the fast (Grok) output parsed solo. -/
def chainedResult (grokText claudeText : String) : ParsedOutput :=
  let parsedClaude := parseOutputToJson claudeText ModelKind.claude
  if parsedClaude.files.length > 0 then parsedClaude
  else parseOutputToJson grokText ModelKind.grok

/-! ### Semantic recall: `cosineSimilarity` (src/lib/store/sandbox-errors.ts,
embeddings module) and the similar-records query (src/unnamed/part_002) -/

/-- The `dot` accumulator of `cosineSimilarity`: sum of `a[i] * b[i]`
over `i < min(a.length, b.length)`. -/
noncomputable def dotOverCommon (a b : List ℝ) : ℝ :=
  (List.zipWith (· * ·) (a.take (min a.length b.length)) (b.take (min a.length b.length))).sum

/-- The `na` accumulator: sum of `a[i] * a[i]` over the common prefix. -/
noncomputable def normSqA (a b : List ℝ) : ℝ :=
  (List.zipWith (· * ·) (a.take (min a.length b.length)) (a.take (min a.length b.length))).sum

/-- The `nb` accumulator: sum of `b[i] * b[i]` over the common prefix. -/
noncomputable def normSqB (a b : List ℝ) : ℝ :=
  (List.zipWith (· * ·) (b.take (min a.length b.length)) (b.take (min a.length b.length))).sum

/-- `cosineSimilarity(a, b)` from the embeddings module: `0` when either
accumulated norm is zero, otherwise `dot / (sqrt na * sqrt nb)`. -/
noncomputable def cosineSimilarity (a b : List ℝ) : ℝ :=
  if normSqA a b = 0 ∨ normSqB a b = 0 then 0
  else dotOverCommon a b / (Real.sqrt (normSqA a b) * Real.sqrt (normSqB a b))

/-- A row of the `quality_graph` window fetched by the similar-records
`GET` route. -/
structure QRow where
  id : String
  type : String
  content : String
  embedding : List ℝ
  created_at : String

/-- The `scored` mapping of the `GET` route: pair each row with its
cosine similarity to the query embedding. -/
noncomputable def scoreRows (emb : List ℝ) (rows : List QRow) : List (QRow × ℝ) :=
  rows.map (fun row => (row, cosineSimilarity emb row.embedding))

/-- The post-processing of the similar-records `GET` route:
`.filter(r => r.score >= minSim).sort((a, b) => b.score - a.score).slice(0, limit)`
(the JS sort is stable and orders by descending score). -/
noncomputable def similarQuery (emb : List ℝ) (rows : List QRow) (minSim : ℝ) (limit : Nat) :
    List (QRow × ℝ) :=
  ((((scoreRows emb rows).filter (fun r => decide (minSim ≤ r.2))).mergeSort
    (fun x y => decide (y.2 ≤ x.2))).take limit)

/-- A concrete store state used to instantiate the staged-apply
theorems: `a.txt` is locally edited, both `a.txt` and `b.txt` have
staged changes. -/
def wsState : FilesState :=
  { files := fun p => if p = "a.txt" then some "A0" else if p = "b.txt" then some "B0" else none
    userEdits := ["a.txt"]
    openTabs := []
    activePath := none
    stagedChanges :=
      [{ path := "a.txt", before := "A0", after := "A1", modelUsed := none },
       { path := "b.txt", before := "B0", after := "B1", modelUsed := none }] }

/-- Concrete recall rows used to instantiate the recall-query theorem:
against the query embedding `[1, 0]` their cosine similarities are
`1`, `0` and `-1`. -/
noncomputable def qRowA : QRow :=
  { id := "a", type := "pattern", content := "ca", embedding := [1, 0], created_at := "t1" }

/-- Second concrete recall row (similarity `0`). -/
noncomputable def qRowB : QRow :=
  { id := "b", type := "correction", content := "cb", embedding := [0, 1], created_at := "t2" }

/-- Third concrete recall row (similarity `-1`, below any non-negative
threshold). -/
noncomputable def qRowC : QRow :=
  { id := "c", type := "pattern", content := "cc", embedding := [-1, 0], created_at := "t3" }

/-! ## Staged-change manager lemmas -/

theorem applyStagedLoop_edits (cs : List StagedChange) :
    ∀ (f : String → Option String) (e : List String) (a k : Nat),
      (applyStagedLoop cs f e a k).2.1 = e := by
  induction cs with
  | nil => intro f e a k; rfl
  | cons c rest ih =>
    intro f e a k
    by_cases hm : c.path ∈ e
    · simp [applyStagedLoop, hm, ih]
    · simp [applyStagedLoop, hm, ih]

theorem applyStagedLoop_applied (cs : List StagedChange) :
    ∀ (f : String → Option String) (e : List String) (a k : Nat),
      (applyStagedLoop cs f e a k).2.2.1 =
        a + (cs.filter (fun c => !(e.contains c.path))).length := by
  induction cs with
  | nil => intro f e a k; rfl
  | cons c rest ih =>
    intro f e a k
    by_cases hm : c.path ∈ e
    · simp [applyStagedLoop, hm, ih]
    · simp [applyStagedLoop, hm, ih]
      omega

theorem applyStagedLoop_skipped (cs : List StagedChange) :
    ∀ (f : String → Option String) (e : List String) (a k : Nat),
      (applyStagedLoop cs f e a k).2.2.2 =
        k + (cs.filter (fun c => e.contains c.path)).length := by
  induction cs with
  | nil => intro f e a k; rfl
  | cons c rest ih =>
    intro f e a k
    by_cases hm : c.path ∈ e
    · simp [applyStagedLoop, hm, ih]
      omega
    · simp [applyStagedLoop, hm, ih]

theorem applyStagedLoop_files_edited (cs : List StagedChange) :
    ∀ (f : String → Option String) (e : List String) (a k : Nat) (p : String),
      p ∈ e → (applyStagedLoop cs f e a k).1 p = f p := by
  induction cs with
  | nil => intro f e a k p _; rfl
  | cons c rest ih =>
    intro f e a k p hp
    by_cases hm : c.path ∈ e
    · simpa [applyStagedLoop, hm] using ih _ e a (k + 1) p hp
    · have hne : p ≠ c.path := fun hpc => hm (hpc ▸ hp)
      simpa [applyStagedLoop, hm, hne] using
        ih (fun q => if q = c.path then some c.after else f q) e (a + 1) k p hp

theorem applyStagedLoop_files_untouched (cs : List StagedChange) :
    ∀ (f : String → Option String) (e : List String) (a k : Nat) (p : String),
      (∀ c ∈ cs, c.path ≠ p) → (applyStagedLoop cs f e a k).1 p = f p := by
  induction cs with
  | nil => intro f e a k p _; rfl
  | cons c rest ih =>
    intro f e a k p hp
    have hc : c.path ≠ p := hp c (List.mem_cons_self c rest)
    have hrest : ∀ c' ∈ rest, c'.path ≠ p := fun c' hc' => hp c' (List.mem_cons_of_mem c hc')
    by_cases hm : c.path ∈ e
    · simpa [applyStagedLoop, hm] using ih _ e a (k + 1) p hrest
    · have hne : p ≠ c.path := fun hpc => hc hpc.symm
      simpa [applyStagedLoop, hm, hne] using
        ih (fun q => if q = c.path then some c.after else f q) e (a + 1) k p hrest

theorem applyStagedLoop_files_last (c : StagedChange) (l₂ : List StagedChange)
    (e : List String) (hlast : ∀ c' ∈ l₂, c'.path ≠ c.path) (hc : c.path ∉ e) :
    ∀ (l₁ : List StagedChange) (f : String → Option String) (a k : Nat),
      (applyStagedLoop (l₁ ++ c :: l₂) f e a k).1 c.path = some c.after := by
  intro l₁
  induction l₁ with
  | nil =>
    intro f a k
    have h := applyStagedLoop_files_untouched l₂
      (fun q => if q = c.path then some c.after else f q) e (a + 1) k c.path hlast
    simpa [applyStagedLoop, hc] using h
  | cons d l₁ ih =>
    intro f a k
    by_cases hm : d.path ∈ e
    · simpa [applyStagedLoop, hm] using ih f a (k + 1)
    · simpa [applyStagedLoop, hm] using
        ih (fun q => if q = d.path then some d.after else f q) (a + 1) k

/-- C10: `applyStagedChanges` is frame-preserving on everything but the
file map and the pending list: the local-edit set `userEdits` is exactly
unchanged (the source's `edits.delete` is dead code, reachable only when
the path is not in the set), `openTabs` and `activePath` are untouched,
and the staged-change list is always cleared. -/
theorem applyStagedChanges_frame (s : FilesState) :
    (applyStagedChanges s).1.userEdits = s.userEdits ∧
    (applyStagedChanges s).1.stagedChanges = [] ∧
    (applyStagedChanges s).1.openTabs = s.openTabs ∧
    (applyStagedChanges s).1.activePath = s.activePath := by
  refine ⟨?_, rfl, rfl, rfl⟩
  simp [applyStagedChanges, applyStagedLoop_edits]

/-- C3: `applyStagedChanges` returns `applied` = the number of staged
changes whose path is not in the local-edit set and `skipped` = the
number whose path is in it; paths in the edit set and paths named by no
staged change keep their previous content; and a non-conflicting change
that is the last staged change for its path ends with its `after`
content in the file map. -/
theorem applyStagedChanges_spec (s : FilesState) :
    (applyStagedChanges s).2.1 =
      (s.stagedChanges.filter (fun c => !(s.userEdits.contains c.path))).length ∧
    (applyStagedChanges s).2.2 =
      (s.stagedChanges.filter (fun c => s.userEdits.contains c.path)).length ∧
    (∀ p, p ∈ s.userEdits → (applyStagedChanges s).1.files p = s.files p) ∧
    (∀ p, (∀ c ∈ s.stagedChanges, c.path ≠ p) →
      (applyStagedChanges s).1.files p = s.files p) ∧
    (∀ l₁ c l₂, s.stagedChanges = l₁ ++ c :: l₂ → (∀ c' ∈ l₂, c'.path ≠ c.path) →
      c.path ∉ s.userEdits → (applyStagedChanges s).1.files c.path = some c.after) := by
  refine ⟨?_, ?_, ?_, ?_, ?_⟩
  · simpa [applyStagedChanges] using
      applyStagedLoop_applied s.stagedChanges s.files s.userEdits 0 0
  · simpa [applyStagedChanges] using
      applyStagedLoop_skipped s.stagedChanges s.files s.userEdits 0 0
  · intro p hp
    simpa [applyStagedChanges] using
      applyStagedLoop_files_edited s.stagedChanges s.files s.userEdits 0 0 p hp
  · intro p hp
    simpa [applyStagedChanges] using
      applyStagedLoop_files_untouched s.stagedChanges s.files s.userEdits 0 0 p hp
  · intro l₁ c l₂ hsplit hlast hc
    have h := applyStagedLoop_files_last c l₂ s.userEdits hlast hc l₁ s.files 0 0
    rw [← hsplit] at h
    simpa [applyStagedChanges] using h

/-- Witness for C3: the spec's own example — local edits `{a.txt}`,
staged changes for `a.txt` and `b.txt`; apply reports 1 applied,
1 skipped, only `b.txt` changes. -/
theorem applyStagedChanges_spec_witness :
    (applyStagedChanges wsState).2.1 = 1 ∧
    (applyStagedChanges wsState).2.2 = 1 ∧
    (applyStagedChanges wsState).1.files "a.txt" = some "A0" ∧
    (applyStagedChanges wsState).1.files "b.txt" = some "B1" ∧
    (applyStagedChanges wsState).1.files "c.txt" = none := by
  have h := applyStagedChanges_spec wsState
  refine ⟨?_, ?_, ?_, ?_, ?_⟩
  · rw [h.1]; decide
  · rw [h.2.1]; decide
  · rw [h.2.2.1 "a.txt" (by decide)]; decide
  · exact h.2.2.2.2 [{ path := "a.txt", before := "A0", after := "A1", modelUsed := none }]
      { path := "b.txt", before := "B0", after := "B1", modelUsed := none } []
      (by decide) (by simp) (by decide)
  · rw [h.2.2.2.1 "c.txt" (by decide)]; decide

/-! ## Routing policy -/

/-- C5: `decideRoute` is a pure total function with first-match-wins
precedence: a `dual` mode or `dual` vibe always yields the chained
route, regardless of the prompt; otherwise the `scrappy` preset yields
fast-only and the `enterprise` preset refine-only; with no preset,
creation vocabulary (`build`/`creative`) yields fast, else
refinement vocabulary (`refine`/`harden`) yields refine, else fast;
and identical inputs always produce identical outcomes. -/
theorem decideRoute_spec :
    (∀ p v m, m = some "dual" ∨ v = some Vibe.dual → decideRoute p v m = Route.dual) ∧
    (∀ p m, m ≠ some "dual" → decideRoute p (some Vibe.scrappy) m = Route.grok) ∧
    (∀ p m, m ≠ some "dual" → decideRoute p (some Vibe.enterprise) m = Route.claude) ∧
    (∀ p m, m ≠ some "dual" →
      (strContains (jsToLower p) "build" || strContains (jsToLower p) "creative") = true →
      decideRoute p none m = Route.grok) ∧
    (∀ p m, m ≠ some "dual" →
      (strContains (jsToLower p) "build" || strContains (jsToLower p) "creative") = false →
      (strContains (jsToLower p) "refine" || strContains (jsToLower p) "harden") = true →
      decideRoute p none m = Route.claude) ∧
    (∀ p m, m ≠ some "dual" →
      (strContains (jsToLower p) "build" || strContains (jsToLower p) "creative") = false →
      (strContains (jsToLower p) "refine" || strContains (jsToLower p) "harden") = false →
      decideRoute p none m = Route.grok) ∧
    (∀ p v m, decideRoute p v m = decideRoute p v m) := by
  refine ⟨?_, ?_, ?_, ?_, ?_, ?_, fun _ _ _ => rfl⟩
  · intro p v m h; simp [decideRoute, h]
  · intro p m h; simp [decideRoute, h]
  · intro p m h; simp [decideRoute, h]
  · intro p m h hk; simp [decideRoute, h, hk]
  · intro p m h hk hr; simp [decideRoute, h, hk, hr]
  · intro p m h hk hr; simp [decideRoute, h, hk, hr]

/-- Witness for C5: each precedence rule exercised at a concrete input;
in particular `dual` wins even for a prompt full of refine vocabulary. -/
theorem decideRoute_spec_witness :
    decideRoute "refine and harden this" none (some "dual") = Route.dual ∧
    decideRoute "refine this" (some Vibe.scrappy) none = Route.grok ∧
    decideRoute "build it" (some Vibe.enterprise) none = Route.claude ∧
    decideRoute "Build a login form" none none = Route.grok ∧
    decideRoute "please harden this" none none = Route.claude ∧
    decideRoute "hello world" none none = Route.grok :=
  ⟨decideRoute_spec.1 _ none _ (Or.inl rfl),
   decideRoute_spec.2.1 _ none (by decide),
   decideRoute_spec.2.2.1 _ none (by decide),
   decideRoute_spec.2.2.2.1 _ none (by decide) (by decide),
   decideRoute_spec.2.2.2.2.1 _ none (by decide) (by decide) (by decide),
   decideRoute_spec.2.2.2.2.2.1 _ none (by decide) (by decide) (by decide)⟩

/-! ## Chained orchestration fallback -/

/-- C2: in chained (dual) routing, when the refine model's parsed output
has zero file blocks the orchestrator returns exactly the fast model's
solo parsed result (files, explanation and tests); and when the fast
result has at least one file, the chained result never has zero files. -/
theorem chainedResult_fallback (grokText claudeText : String) :
    ((parseOutputToJson claudeText ModelKind.claude).files.length = 0 →
      chainedResult grokText claudeText = parseOutputToJson grokText ModelKind.grok) ∧
    ((parseOutputToJson grokText ModelKind.grok).files ≠ [] →
      (chainedResult grokText claudeText).files ≠ []) := by
  constructor
  · intro h
    simp [chainedResult, h]
  · intro h
    by_cases hc : (parseOutputToJson claudeText ModelKind.claude).files.length > 0
    · simp only [chainedResult, if_pos hc]
      exact List.ne_nil_of_length_pos hc
    · simp [chainedResult, hc, h]

/-- Witness for C2: an empty refine output (zero file blocks) falls back
to the fast result, and cannot zero out a usable fast result. -/
theorem chainedResult_fallback_witness :
    chainedResult "hi there" "" = parseOutputToJson "hi there" ModelKind.grok ∧
    (chainedResult "hi there" "").files ≠ [] :=
  ⟨(chainedResult_fallback "hi there" "").1 (by decide),
   (chainedResult_fallback "hi there" "").2 (by decide)⟩

/-! ## Output-protocol codec -/

/-- C6: when the raw text contains no well-formed file block but its
trimmed form is non-empty, parsing yields exactly one file at the fixed
default path `src/App.jsx` holding the whole trimmed text; a missing
`<explanation>` or `<tests>` section independently yields the empty
string. -/
theorem parseOutputToJson_prose_fallback (raw : String) (mk : ModelKind) :
    (extractFileBlocks raw.data = [] → jsTrim raw ≠ "" →
      (parseOutputToJson raw mk).files =
        [{ path := "src/App.jsx", content := jsTrim raw, diff := false, modelUsed := mk }]) ∧
    (extractTagContent ("<explanation>".data) ("</explanation>".data) raw.data = none →
      (parseOutputToJson raw mk).explanation = "") ∧
    (extractTagContent ("<tests>".data) ("</tests>".data) raw.data = none →
      (parseOutputToJson raw mk).tests = "") := by
  refine ⟨?_, ?_, ?_⟩
  · intro hb ht
    have hlen : ¬(jsTrim raw).length = 0 := by
      intro h0
      exact ht (String.ext (List.length_eq_zero.mp h0))
    simp [parseOutputToJson, hb, hlen]
  · intro he
    simp [parseOutputToJson, he, jsTrim]
  · intro he
    simp [parseOutputToJson, he, jsTrim]

/-- Witness for C6: a pure-prose model reply becomes a single fallback
file at `src/App.jsx`, with empty explanation and tests. -/
theorem parseOutputToJson_prose_fallback_witness :
    (parseOutputToJson "Just prose, no tags." ModelKind.grok).files =
      [{ path := "src/App.jsx", content := jsTrim "Just prose, no tags.", diff := false,
         modelUsed := ModelKind.grok }] ∧
    (parseOutputToJson "Just prose, no tags." ModelKind.grok).explanation = "" ∧
    (parseOutputToJson "Just prose, no tags." ModelKind.grok).tests = "" :=
  ⟨(parseOutputToJson_prose_fallback "Just prose, no tags." ModelKind.grok).1
      (by decide) (by decide),
   (parseOutputToJson_prose_fallback "Just prose, no tags." ModelKind.grok).2.1 (by decide),
   (parseOutputToJson_prose_fallback "Just prose, no tags." ModelKind.grok).2.2 (by decide)⟩

/-! ## Cosine similarity -/

theorem zipWith_mul_self (l : List ℝ) :
    List.zipWith (· * ·) l l = l.map (fun x => x * x) := by
  induction l with
  | nil => rfl
  | cons x xs ih => simp [ih]

theorem normSqA_nonneg (a b : List ℝ) : 0 ≤ normSqA a b := by
  unfold normSqA
  rw [zipWith_mul_self]
  refine List.sum_nonneg ?_
  intro x hx
  obtain ⟨y, -, rfl⟩ := List.mem_map.mp hx
  exact mul_self_nonneg y

theorem normSqB_nonneg (a b : List ℝ) : 0 ≤ normSqB a b := by
  unfold normSqB
  rw [zipWith_mul_self]
  refine List.sum_nonneg ?_
  intro x hx
  obtain ⟨y, -, rfl⟩ := List.mem_map.mp hx
  exact mul_self_nonneg y

/-- C9: `cosineSimilarity` returns 0 whenever either accumulated norm
over the common prefix is zero (in particular for an empty vector on
either side), and in the remaining branch the divisor
`sqrt na * sqrt nb` is provably non-zero, so the function is total and
never divides by zero. -/
theorem cosineSimilarity_safe (a b : List ℝ) :
    (normSqA a b = 0 ∨ normSqB a b = 0 → cosineSimilarity a b = 0) ∧
    (a = [] ∨ b = [] → cosineSimilarity a b = 0) ∧
    (normSqA a b ≠ 0 → normSqB a b ≠ 0 →
      Real.sqrt (normSqA a b) * Real.sqrt (normSqB a b) ≠ 0) := by
  refine ⟨?_, ?_, ?_⟩
  · intro h
    unfold cosineSimilarity
    rw [if_pos h]
  · intro h
    have hz : normSqA a b = 0 ∨ normSqB a b = 0 := by
      cases h with
      | inl ha => left; subst ha; simp [normSqA]
      | inr hb => right; subst hb; simp [normSqB]
    unfold cosineSimilarity
    rw [if_pos hz]
  · intro ha hb
    have ha' : 0 < normSqA a b := lt_of_le_of_ne (normSqA_nonneg a b) (Ne.symm ha)
    have hb' : 0 < normSqB a b := lt_of_le_of_ne (normSqB_nonneg a b) (Ne.symm hb)
    exact mul_ne_zero (ne_of_gt (Real.sqrt_pos.mpr ha')) (ne_of_gt (Real.sqrt_pos.mpr hb'))

/-- Witness for C9: a zero vector scores 0 against anything, the empty
vector scores 0, and a non-degenerate pair has a non-zero divisor. -/
theorem cosineSimilarity_safe_witness :
    normSqA [(0 : ℝ)] [1] = 0 ∧
    cosineSimilarity [(0 : ℝ)] [1] = 0 ∧
    cosineSimilarity ([] : List ℝ) [1] = 0 ∧
    Real.sqrt (normSqA [(1 : ℝ)] [1]) * Real.sqrt (normSqB [(1 : ℝ)] [1]) ≠ 0 := by
  have h0 : normSqA [(0 : ℝ)] [1] = 0 := by simp [normSqA]
  have h1 : normSqA [(1 : ℝ)] [1] ≠ 0 := by simp [normSqA]
  have h2 : normSqB [(1 : ℝ)] [1] ≠ 0 := by simp [normSqB]
  exact ⟨h0, (cosineSimilarity_safe [(0 : ℝ)] [1]).1 (Or.inl h0),
    (cosineSimilarity_safe ([] : List ℝ) [1]).2.1 (Or.inl rfl),
    (cosineSimilarity_safe [(1 : ℝ)] [1]).2.2 h1 h2⟩

/-! ## Semantic recall query -/

/-- C7: the similar-records query returns exactly
`min limit (number of threshold-passing records)` results, and there is
a remainder `rest` such that result ++ rest is a permutation of exactly
the scored records passing the `minSimilarity` threshold, with the
whole concatenation pairwise ordered by descending similarity — so the
result is exactly the top `limit`-slice, in descending order, of the
threshold-passing records (all of them when `limit` permits). -/
theorem similarQuery_spec (emb : List ℝ) (rows : List QRow) (minSim : ℝ) (limit : Nat) :
    (similarQuery emb rows minSim limit).length =
      min limit ((scoreRows emb rows).filter (fun r => decide (minSim ≤ r.2))).length ∧
    ∃ rest : List (QRow × ℝ),
      List.Perm (similarQuery emb rows minSim limit ++ rest)
        ((scoreRows emb rows).filter (fun r => decide (minSim ≤ r.2))) ∧
      List.Pairwise (fun x y : QRow × ℝ => y.2 ≤ x.2)
        (similarQuery emb rows minSim limit ++ rest) := by
  refine ⟨?_, ?_⟩
  · simp only [similarQuery]
    rw [List.length_take, (List.mergeSort_perm _ _).length_eq]
  · refine ⟨(((scoreRows emb rows).filter (fun r => decide (minSim ≤ r.2))).mergeSort
      (fun x y => decide (y.2 ≤ x.2))).drop limit, ?_, ?_⟩
    · simp only [similarQuery]
      rw [List.take_append_drop]
      exact List.mergeSort_perm _ _
    · simp only [similarQuery]
      rw [List.take_append_drop]
      have hp := @List.sorted_mergeSort (QRow × ℝ) (fun x y => decide (y.2 ≤ x.2))
        (fun x y z h1 h2 =>
          decide_eq_true (le_trans (of_decide_eq_true h2) (of_decide_eq_true h1)))
        (fun x y => by rcases le_total y.2 x.2 with h | h <;> simp [h])
        ((scoreRows emb rows).filter (fun r => decide (minSim ≤ r.2)))
      exact hp.imp (fun h => of_decide_eq_true h)

/-! ## Tolerant apply: fail-closed on context mismatch -/

/-- C4: whenever the operation loop meets a space-prefixed (context)
operation whose payload differs from the base line at the current
cursor (including a cursor past the end), the loop aborts with `none`;
and an aborted loop makes `applyUnifiedDiff` return the base text
unchanged — never an error, never a truncation. -/
theorem applyUnifiedDiff_context_mismatch :
    (∀ (bl : List String) (op : String) (ops : List String) (i : Nat) (acc : List String),
      jsStartsWith op " " = true → bl[i]? ≠ some (jsDropOne op) →
      applyLoop bl (op :: ops) i acc = none) ∧
    (∀ before diffText,
      applyLoop (jsSplitNl before) (parseUnifiedDiff diffText) 0 [] = none →
      applyUnifiedDiff before diffText = before) := by
  constructor
  · intro bl op ops i acc hsp hne
    simp [applyLoop, hsp, hne]
  · intro b d h
    simp [applyUnifiedDiff, h]

/-- Witness for C4: the one-line patch `" y"` does not match the base
`"x"`, so apply returns the base unchanged. -/
theorem applyUnifiedDiff_context_mismatch_witness : applyUnifiedDiff "x" " y" = "x" := by
  have h1 : parseUnifiedDiff " y" = [" y"] := by decide
  have h3 := applyUnifiedDiff_context_mismatch.1 (jsSplitNl "x") " y" [] 0 []
    (by decide) (by decide)
  exact applyUnifiedDiff_context_mismatch.2 "x" " y" (by rw [h1]; exact h3)

/-! ## Diff engine lemmas -/

theorem mk_data (s : String) : String.mk s.data = s :=
  String.ext rfl

theorem jsDropOne_consChar (c : Char) (s : String) : jsDropOne (consChar c s) = s :=
  mk_data s

theorem startsWith_space_space (l : String) : jsStartsWith (consChar ' ' l) " " = true := by
  simp [jsStartsWith, consChar, List.isPrefixOf]

theorem startsWith_dash_space (l : String) : jsStartsWith (consChar '-' l) " " = false := rfl

theorem startsWith_plus_space (l : String) : jsStartsWith (consChar '+' l) " " = false := rfl

theorem startsWith_dash_dash (l : String) : jsStartsWith (consChar '-' l) "-" = true := by
  simp [jsStartsWith, consChar, List.isPrefixOf]

theorem startsWith_plus_dash (l : String) : jsStartsWith (consChar '+' l) "-" = false := rfl

theorem startsWith_plus_plus (l : String) : jsStartsWith (consChar '+' l) "+" = true := by
  simp [jsStartsWith, consChar, List.isPrefixOf]

/-- Fuel irrelevance for the diff emission: any fuel at least the summed
length gives the same result, so `diffLines` is the loop's true value. -/
theorem diffLinesAux_irrel : ∀ f₁ f₂ : Nat, ∀ xs ys : List String,
    xs.length + ys.length ≤ f₁ → xs.length + ys.length ≤ f₂ →
    diffLinesAux f₁ xs ys = diffLinesAux f₂ xs ys := by
  intro f₁
  induction f₁ with
  | zero =>
    intro f₂ xs ys h1 h2
    have hx : xs = [] := List.eq_nil_of_length_eq_zero (by omega)
    have hy : ys = [] := List.eq_nil_of_length_eq_zero (by omega)
    subst hx; subst hy
    cases f₂ <;> rfl
  | succ f₁ ih =>
    intro f₂ xs ys h1 h2
    cases f₂ with
    | zero =>
      have hx : xs = [] := List.eq_nil_of_length_eq_zero (by omega)
      have hy : ys = [] := List.eq_nil_of_length_eq_zero (by omega)
      subst hx; subst hy
      rfl
    | succ f₂ =>
      cases xs with
      | nil =>
        cases ys with
        | nil => rfl
        | cons b bs =>
          simp only [List.length_nil, List.length_cons] at h1 h2
          simp only [diffLinesAux]
          exact congrArg _ (ih f₂ [] bs (by first | omega | (simp only [List.length_nil, List.length_cons]; omega)) (by first | omega | (simp only [List.length_nil, List.length_cons]; omega)))
      | cons a as =>
        cases ys with
        | nil =>
          simp only [List.length_nil, List.length_cons] at h1 h2
          simp only [diffLinesAux]
          exact congrArg _ (ih f₂ as [] (by first | omega | (simp only [List.length_nil, List.length_cons]; omega)) (by first | omega | (simp only [List.length_nil, List.length_cons]; omega)))
        | cons b bs =>
          simp only [List.length_cons] at h1 h2
          simp only [diffLinesAux]
          by_cases hab : a = b
          · simp only [if_pos hab]
            exact congrArg _ (ih f₂ as bs (by omega) (by omega))
          · simp only [if_neg hab]
            by_cases hle : lcsLen (a :: as) bs ≤ lcsLen as (b :: bs)
            · simp only [if_pos hle]
              exact congrArg _ (ih f₂ as (b :: bs) (by first | omega | (simp only [List.length_nil, List.length_cons]; omega)) (by first | omega | (simp only [List.length_nil, List.length_cons]; omega)))
            · simp only [if_neg hle]
              exact congrArg _ (ih f₂ (a :: as) bs (by first | omega | (simp only [List.length_nil, List.length_cons]; omega)) (by first | omega | (simp only [List.length_nil, List.length_cons]; omega)))

theorem diffLines_nil_cons (b : String) (bs : List String) :
    diffLines [] (b :: bs) = consChar '+' b :: diffLines [] bs := rfl

theorem diffLines_cons_nil (a : String) (as : List String) :
    diffLines (a :: as) [] = consChar '-' a :: diffLines as [] := rfl

theorem diffLines_cons_cons (a : String) (as : List String) (b : String) (bs : List String) :
    diffLines (a :: as) (b :: bs) =
      if a = b then consChar ' ' a :: diffLines as bs
      else if lcsLen (a :: as) bs ≤ lcsLen as (b :: bs) then
        consChar '-' a :: diffLines as (b :: bs)
      else
        consChar '+' b :: diffLines (a :: as) bs := by
  have h0 : diffLines (a :: as) (b :: bs) =
      diffLinesAux (as.length + bs.length + 1 + 1) (a :: as) (b :: bs) :=
    congrArg (fun n => diffLinesAux n (a :: as) (b :: bs)) (by simp [List.length_cons]; omega)
  rw [h0]
  simp only [diffLinesAux]
  by_cases hab : a = b
  · simp only [if_pos hab]
    exact congrArg _ (diffLinesAux_irrel _ _ as bs (by omega) (by omega))
  · simp only [if_neg hab]
    by_cases hle : lcsLen (a :: as) bs ≤ lcsLen as (b :: bs)
    · simp only [if_pos hle]
      exact congrArg _ (diffLinesAux_irrel _ _ as (b :: bs) (by first | omega | (simp only [List.length_nil, List.length_cons]; omega)) (by omega))
    · simp only [if_neg hle]
      exact congrArg _ (diffLinesAux_irrel _ _ (a :: as) bs (by first | omega | (simp only [List.length_nil, List.length_cons]; omega)) (by omega))

/-- C8: at a genuine LCS tie (`dp[i+1][j] = dp[i][j+1]` with unequal
heads), `unifiedDiff`'s emission consumes the before-line first,
emitting the `-` operation before the matching `+`. -/
theorem diffLines_tiebreak (a : String) (as : List String) (b : String) (bs : List String)
    (hne : a ≠ b) (htie : lcsLen as (b :: bs) = lcsLen (a :: as) bs) :
    diffLines (a :: as) (b :: bs) = consChar '-' a :: diffLines as (b :: bs) := by
  rw [diffLines_cons_cons, if_neg hne, if_pos (le_of_eq htie.symm)]

/-- Witness for C8: a one-line replacement is a tie, and the `-` line is
emitted first. -/
theorem diffLines_tiebreak_witness :
    "p" ≠ "q" ∧ lcsLen [] ["q"] = lcsLen ["p"] [] ∧
    diffLines ["p"] ["q"] = consChar '-' "p" :: diffLines [] ["q"] :=
  ⟨by decide, by decide, diffLines_tiebreak "p" [] "q" [] (by decide) (by decide)⟩

/-! ## Split/join round-trip lemmas -/

theorem splitOnP_no_sep (p : Char → Bool) : ∀ (xs : List Char), ∀ l ∈ xs.splitOnP p,
    ∀ y ∈ l, p y = false := by
  intro xs
  induction xs with
  | nil =>
    intro l hl y hy
    simp only [List.splitOnP_nil, List.mem_singleton] at hl
    subst hl; cases hy
  | cons x xs ih =>
    intro l hl y hy
    rw [List.splitOnP_cons] at hl
    by_cases hx : p x = true
    · rw [if_pos hx] at hl
      rcases List.mem_cons.mp hl with h | h
      · subst h; cases hy
      · exact ih l h y hy
    · rw [if_neg hx] at hl
      obtain ⟨hd, tl, hsplit⟩ : ∃ hd tl, xs.splitOnP p = hd :: tl := by
        cases hsp : xs.splitOnP p with
        | nil => exact absurd hsp (List.splitOnP_ne_nil p xs)
        | cons hd tl => exact ⟨hd, tl, rfl⟩
      rw [hsplit] at hl
      simp only [List.modifyHead] at hl
      rcases List.mem_cons.mp hl with h | h
      · subst h
        rcases List.mem_cons.mp hy with h | h
        · subst h; simpa using hx
        · refine ih hd ?_ y h
          rw [hsplit]; exact List.mem_cons_self hd tl
      · refine ih l ?_ y hy
        rw [hsplit]; exact List.mem_cons_of_mem hd h

theorem jsSplitNl_ne_nil (s : String) : jsSplitNl s ≠ [] := by
  unfold jsSplitNl
  intro h
  exact List.splitOnP_ne_nil _ _ (List.map_eq_nil_iff.mp h)

theorem mem_jsSplitNl_no_nl (s : String) (l : String) (hl : l ∈ jsSplitNl s) :
    '\n' ∉ l.data := by
  unfold jsSplitNl at hl
  obtain ⟨cs, hcs, rfl⟩ := List.mem_map.mp hl
  intro hy
  have h := splitOnP_no_sep (· == '\n') s.data cs hcs '\n' hy
  simp at h

theorem map_mk_data (xs : List String) : (xs.map String.data).map String.mk = xs := by
  induction xs with
  | nil => rfl
  | cons x t ih => simp [ih, mk_data]

theorem jsJoin_jsSplit (s : String) : jsJoinNl (jsSplitNl s) = s := by
  apply String.ext
  show List.intercalate ['\n'] (((s.data.splitOn '\n').map (fun cs => String.mk cs)).map String.data) = s.data
  rw [List.map_map]
  have h : (String.data ∘ fun cs => String.mk cs) = id := rfl
  rw [h, List.map_id]
  exact List.intercalate_splitOn s.data '\n'

theorem jsSplit_jsJoin (xs : List String) (hne : xs ≠ []) (hnl : ∀ l ∈ xs, '\n' ∉ l.data) :
    jsSplitNl (jsJoinNl xs) = xs := by
  unfold jsSplitNl jsJoinNl
  show ((List.intercalate ['\n'] (xs.map String.data)).splitOn '\n').map (fun cs => String.mk cs) = xs
  have h1 : ∀ l ∈ xs.map String.data, '\n' ∉ l := by
    intro l hl
    obtain ⟨t, ht, rfl⟩ := List.mem_map.mp hl
    exact hnl t ht
  have h2 : xs.map String.data ≠ [] := fun h => hne (List.map_eq_nil_iff.mp h)
  rw [List.splitOn_intercalate (xs.map String.data) '\n' h1 h2]
  exact map_mk_data xs

/-! ## Diff emission shape and header-freeness -/

theorem diffLines_nil_nil : diffLines [] [] = [] := rfl

theorem startsWith_space_hdr1 (l : String) : jsStartsWith (consChar ' ' l) "--- " = false := rfl

theorem startsWith_space_hdr2 (l : String) : jsStartsWith (consChar ' ' l) "+++ " = false := rfl

theorem startsWith_space_hdr3 (l : String) : jsStartsWith (consChar ' ' l) "@@" = false := rfl

theorem startsWith_dash_hdr1 (l : String) :
    jsStartsWith (consChar '-' l) "--- " = jsStartsWith l "-- " := by
  simp [jsStartsWith, consChar, List.isPrefixOf]

theorem startsWith_dash_hdr2 (l : String) : jsStartsWith (consChar '-' l) "+++ " = false := rfl

theorem startsWith_dash_hdr3 (l : String) : jsStartsWith (consChar '-' l) "@@" = false := rfl

theorem startsWith_plus_hdr1 (l : String) : jsStartsWith (consChar '+' l) "--- " = false := rfl

theorem startsWith_plus_hdr2 (l : String) :
    jsStartsWith (consChar '+' l) "+++ " = jsStartsWith l "++ " := by
  simp [jsStartsWith, consChar, List.isPrefixOf]

theorem startsWith_plus_hdr3 (l : String) : jsStartsWith (consChar '+' l) "@@" = false := rfl

/-- Every operation emitted by the diff is a line of one of the inputs
with a one-character prefix: `' '` and `'-'` operations carry a line of
the old text, `'+'` operations a line of the new text. -/
theorem diffLines_shape : ∀ (n : Nat) (xs ys : List String), xs.length + ys.length = n →
    ∀ op ∈ diffLines xs ys,
    ∃ l, (op = consChar ' ' l ∧ l ∈ xs) ∨ (op = consChar '-' l ∧ l ∈ xs) ∨
      (op = consChar '+' l ∧ l ∈ ys) := by
  intro n
  induction n using Nat.strong_induction_on with
  | _ n ih =>
    intro xs ys hn op hop
    match xs, ys with
    | [], [] =>
      rw [diffLines_nil_nil] at hop
      cases hop
    | [], b :: bs =>
      rw [diffLines_nil_cons] at hop
      rcases List.mem_cons.mp hop with h | h
      · exact ⟨b, Or.inr (Or.inr ⟨h, List.mem_cons_self b bs⟩)⟩
      · obtain ⟨l, hl⟩ := ih ([].length + bs.length)
          (by simp only [List.length_nil, List.length_cons] at hn ⊢; omega) [] bs rfl op h
        rcases hl with ⟨_, hm⟩ | ⟨_, hm⟩ | ⟨hop', hm⟩
        · cases hm
        · cases hm
        · exact ⟨l, Or.inr (Or.inr ⟨hop', List.mem_cons_of_mem b hm⟩)⟩
    | a :: as, [] =>
      rw [diffLines_cons_nil] at hop
      rcases List.mem_cons.mp hop with h | h
      · exact ⟨a, Or.inr (Or.inl ⟨h, List.mem_cons_self a as⟩)⟩
      · obtain ⟨l, hl⟩ := ih (as.length + [].length)
          (by simp only [List.length_nil, List.length_cons] at hn ⊢; omega) as [] rfl op h
        rcases hl with ⟨hop', hm⟩ | ⟨hop', hm⟩ | ⟨_, hm⟩
        · exact ⟨l, Or.inl ⟨hop', List.mem_cons_of_mem a hm⟩⟩
        · exact ⟨l, Or.inr (Or.inl ⟨hop', List.mem_cons_of_mem a hm⟩)⟩
        · cases hm
    | a :: as, b :: bs =>
      rw [diffLines_cons_cons] at hop
      simp only [List.length_cons] at hn
      by_cases hab : a = b
      · rw [if_pos hab] at hop
        rcases List.mem_cons.mp hop with h | h
        · exact ⟨a, Or.inl ⟨h, List.mem_cons_self a as⟩⟩
        · obtain ⟨l, hl⟩ := ih (as.length + bs.length) (by omega) as bs rfl op h
          rcases hl with ⟨hop', hm⟩ | ⟨hop', hm⟩ | ⟨hop', hm⟩
          · exact ⟨l, Or.inl ⟨hop', List.mem_cons_of_mem a hm⟩⟩
          · exact ⟨l, Or.inr (Or.inl ⟨hop', List.mem_cons_of_mem a hm⟩)⟩
          · exact ⟨l, Or.inr (Or.inr ⟨hop', List.mem_cons_of_mem b hm⟩)⟩
      · rw [if_neg hab] at hop
        by_cases hle : lcsLen (a :: as) bs ≤ lcsLen as (b :: bs)
        · rw [if_pos hle] at hop
          rcases List.mem_cons.mp hop with h | h
          · exact ⟨a, Or.inr (Or.inl ⟨h, List.mem_cons_self a as⟩)⟩
          · obtain ⟨l, hl⟩ := ih (as.length + (b :: bs).length)
              (by simp only [List.length_cons]; omega) as (b :: bs) rfl op h
            rcases hl with ⟨hop', hm⟩ | ⟨hop', hm⟩ | ⟨hop', hm⟩
            · exact ⟨l, Or.inl ⟨hop', List.mem_cons_of_mem a hm⟩⟩
            · exact ⟨l, Or.inr (Or.inl ⟨hop', List.mem_cons_of_mem a hm⟩)⟩
            · exact ⟨l, Or.inr (Or.inr ⟨hop', hm⟩)⟩
        · rw [if_neg hle] at hop
          rcases List.mem_cons.mp hop with h | h
          · exact ⟨b, Or.inr (Or.inr ⟨h, List.mem_cons_self b bs⟩)⟩
          · obtain ⟨l, hl⟩ := ih ((a :: as).length + bs.length)
              (by simp only [List.length_cons]; omega) (a :: as) bs rfl op h
            rcases hl with ⟨hop', hm⟩ | ⟨hop', hm⟩ | ⟨hop', hm⟩
            · exact ⟨l, Or.inl ⟨hop', hm⟩⟩
            · exact ⟨l, Or.inr (Or.inl ⟨hop', hm⟩)⟩
            · exact ⟨l, Or.inr (Or.inr ⟨hop', List.mem_cons_of_mem b hm⟩)⟩

theorem diffLines_ne_nil (a : String) (as : List String) (b : String) (bs : List String) :
    diffLines (a :: as) (b :: bs) ≠ [] := by
  rw [diffLines_cons_cons]
  by_cases hab : a = b
  · simp [hab]
  · by_cases hle : lcsLen (a :: as) bs ≤ lcsLen as (b :: bs) <;> simp [hab, hle]

/-- When no base line starts with `"-- "` and no candidate line with
`"++ "`, the header filter of `parseUnifiedDiff` keeps every emitted
operation, so parsing the diff text recovers the operation list. -/
theorem parse_unifiedDiff_ops (B A : String)
    (hB : ∀ l ∈ jsSplitNl B, jsStartsWith l "-- " = false)
    (hA : ∀ l ∈ jsSplitNl A, jsStartsWith l "++ " = false) :
    parseUnifiedDiff (unifiedDiff B A) = diffLines (jsSplitNl B) (jsSplitNl A) := by
  obtain ⟨a, as, hBeq⟩ : ∃ a as, jsSplitNl B = a :: as := by
    cases h : jsSplitNl B with
    | nil => exact absurd h (jsSplitNl_ne_nil B)
    | cons a as => exact ⟨a, as, rfl⟩
  obtain ⟨b, bs, hAeq⟩ : ∃ b bs, jsSplitNl A = b :: bs := by
    cases h : jsSplitNl A with
    | nil => exact absurd h (jsSplitNl_ne_nil A)
    | cons b bs => exact ⟨b, bs, rfl⟩
  have hne : diffLines (jsSplitNl B) (jsSplitNl A) ≠ [] := by
    rw [hBeq, hAeq]; exact diffLines_ne_nil a as b bs
  have hnl : ∀ op ∈ diffLines (jsSplitNl B) (jsSplitNl A), '\n' ∉ op.data := by
    intro op hop
    obtain ⟨l, hl⟩ := diffLines_shape _ (jsSplitNl B) (jsSplitNl A) rfl op hop
    rcases hl with ⟨rfl, hm⟩ | ⟨rfl, hm⟩ | ⟨rfl, hm⟩ <;>
      · intro hin
        rcases List.mem_cons.mp hin with h | h
        · exact absurd h (by decide)
        · first
          | exact mem_jsSplitNl_no_nl B l hm h
          | exact mem_jsSplitNl_no_nl A l hm h
  unfold parseUnifiedDiff unifiedDiff
  rw [jsSplit_jsJoin _ hne hnl]
  apply List.filter_eq_self.mpr
  intro op hop
  obtain ⟨l, hl⟩ := diffLines_shape _ (jsSplitNl B) (jsSplitNl A) rfl op hop
  rcases hl with ⟨rfl, hm⟩ | ⟨rfl, hm⟩ | ⟨rfl, hm⟩
  · simp [startsWith_space_hdr1, startsWith_space_hdr2, startsWith_space_hdr3]
  · simp [startsWith_dash_hdr1, startsWith_dash_hdr2, startsWith_dash_hdr3, hB l hm]
  · simp [startsWith_plus_hdr1, startsWith_plus_hdr2, startsWith_plus_hdr3, hA l hm]

theorem getElem?_of_drop (bl : List String) (i : Nat) (a : String) (as : List String)
    (h : bl.drop i = a :: as) : bl[i]? = some a := by
  have hg := List.getElem?_drop bl i 0
  rw [h] at hg
  simpa using hg.symm

theorem drop_succ_of_drop (bl : List String) (i : Nat) (a : String) (as : List String)
    (h : bl.drop i = a :: as) : bl.drop (i + 1) = as := by
  have h2 : (bl.drop i).drop 1 = as := by rw [h]; rfl
  rw [List.drop_drop] at h2
  simpa [Nat.add_comm] using h2

/-- Replaying the emitted operations against the base lines (from any
cursor position whose suffix is the old side) succeeds and accumulates
exactly the new side. -/
theorem applyLoop_diffLines : ∀ (n : Nat) (ol nl : List String), ol.length + nl.length = n →
    ∀ (bl : List String) (i : Nat) (acc : List String), bl.drop i = ol →
    applyLoop bl (diffLines ol nl) i acc = some (acc ++ nl) := by
  intro n
  induction n using Nat.strong_induction_on with
  | _ n ih =>
    intro ol nl hn bl i acc hdrop
    match ol, nl with
    | [], [] =>
      rw [diffLines_nil_nil]
      simp [applyLoop, hdrop]
    | [], b :: bs =>
      rw [diffLines_nil_cons]
      have hrec := ih ([].length + bs.length)
        (by simp only [List.length_nil, List.length_cons] at hn ⊢; omega)
        [] bs rfl bl i (acc ++ [b]) hdrop
      simp [applyLoop, startsWith_plus_space, startsWith_plus_dash, startsWith_plus_plus,
        jsDropOne_consChar, hrec]
    | a :: as, [] =>
      rw [diffLines_cons_nil]
      have hbi : bl[i]? = some a := getElem?_of_drop bl i a as hdrop
      have hdrop' : bl.drop (i + 1) = as := drop_succ_of_drop bl i a as hdrop
      have hrec := ih (as.length + [].length)
        (by simp only [List.length_nil, List.length_cons] at hn ⊢; omega)
        as [] rfl bl (i + 1) acc hdrop'
      simp [applyLoop, startsWith_dash_space, startsWith_dash_dash,
        jsDropOne_consChar, hbi, hrec]
    | a :: as, b :: bs =>
      rw [diffLines_cons_cons]
      simp only [List.length_cons] at hn
      have hbi : bl[i]? = some a := getElem?_of_drop bl i a as hdrop
      have hdrop' : bl.drop (i + 1) = as := drop_succ_of_drop bl i a as hdrop
      by_cases hab : a = b
      · rw [if_pos hab]
        have hrec := ih (as.length + bs.length) (by omega) as bs rfl bl (i + 1) (acc ++ [a]) hdrop'
        subst hab
        simp [applyLoop, startsWith_space_space, jsDropOne_consChar, hbi, hrec]
      · rw [if_neg hab]
        by_cases hle : lcsLen (a :: as) bs ≤ lcsLen as (b :: bs)
        · rw [if_pos hle]
          have hrec := ih (as.length + (b :: bs).length)
            (by simp only [List.length_cons]; omega) as (b :: bs) rfl bl (i + 1) acc hdrop'
          simp [applyLoop, startsWith_dash_space, startsWith_dash_dash,
            jsDropOne_consChar, hbi, hrec]
        · rw [if_neg hle]
          have hrec := ih ((a :: as).length + bs.length)
            (by simp only [List.length_cons]; omega) (a :: as) bs rfl bl i (acc ++ [b]) hdrop
          simp [applyLoop, startsWith_plus_space, startsWith_plus_dash, startsWith_plus_plus,
            jsDropOne_consChar, hrec]

/-- Counterexample to C1 as stated: the header filter of
`parseUnifiedDiff` drops a `-` operation for a base line starting with
`"-- "` (it reads `"--- ..."`) and a `+` operation for a candidate line
starting with `"++ "` (it reads `"+++ ..."`), so the round trip fails on
such texts. -/
theorem unifiedDiff_roundtrip_counterexample :
    ¬ (applyUnifiedDiff "-- a" (unifiedDiff "-- a" "x") = "x") ∧
    ¬ (applyUnifiedDiff "y" (unifiedDiff "y" "++ b") = "++ b") := by decide

/-- C1 (amended): for every base text `B` none of whose lines starts
with `"-- "` and candidate text `A` none of whose lines starts with
`"++ "` — so that no emitted diff operation collides with the
`"--- "`/`"+++ "` header filter — applying the computed diff to the base
reproduces the candidate exactly. -/
theorem unifiedDiff_roundtrip (B A : String)
    (hB : ∀ l ∈ jsSplitNl B, jsStartsWith l "-- " = false)
    (hA : ∀ l ∈ jsSplitNl A, jsStartsWith l "++ " = false) :
    applyUnifiedDiff B (unifiedDiff B A) = A := by
  have hparse := parse_unifiedDiff_ops B A hB hA
  have hcore := applyLoop_diffLines ((jsSplitNl B).length + (jsSplitNl A).length)
    (jsSplitNl B) (jsSplitNl A) rfl (jsSplitNl B) 0 [] (by simp)
  unfold applyUnifiedDiff
  rw [hparse, hcore]
  simp [jsJoin_jsSplit]

/-- Witness for C1 (amended): a two-line base and a three-line candidate
with an inserted middle line round-trip exactly. -/
theorem unifiedDiff_roundtrip_witness :
    applyUnifiedDiff "a\nb" (unifiedDiff "a\nb" "a\nc\nb") = "a\nc\nb" :=
  unifiedDiff_roundtrip "a\nb" "a\nc\nb" (by decide) (by decide)

/-- Witness for C7, the spec's recall-threshold example in this code's
shape: three stored rows whose similarities to the query embedding are
`1`, `0` and `-1`, with threshold `0` and limit `2`, return exactly the
first two, in descending similarity order. -/
theorem similarQuery_spec_witness :
    similarQuery [1, 0] [qRowA, qRowB, qRowC] 0 2 = [(qRowA, 1), (qRowB, 0)] := by
  have hc1 : cosineSimilarity [1, 0] ([1, 0] : List ℝ) = 1 := by
    simp [cosineSimilarity, normSqA, normSqB, dotOverCommon]
  have hc2 : cosineSimilarity [1, 0] ([0, 1] : List ℝ) = 0 := by
    simp [cosineSimilarity, normSqA, normSqB, dotOverCommon]
  have hc3 : cosineSimilarity [1, 0] ([-1, 0] : List ℝ) = -1 := by
    simp [cosineSimilarity, normSqA, normSqB, dotOverCommon]
  have hscored : scoreRows [1, 0] [qRowA, qRowB, qRowC] =
      [(qRowA, 1), (qRowB, 0), (qRowC, -1)] := by
    simp [scoreRows, qRowA, qRowB, qRowC, hc1, hc2, hc3]
  have hfilt : List.filter (fun r => decide ((0 : ℝ) ≤ r.2))
      [(qRowA, (1 : ℝ)), (qRowB, 0), (qRowC, -1)] = [(qRowA, 1), (qRowB, 0)] := by
    norm_num [List.filter]
  obtain ⟨hlen, rest, hperm, hpair⟩ := similarQuery_spec [1, 0] [qRowA, qRowB, qRowC] 0 2
  rw [hscored, hfilt] at hlen hperm
  norm_num at hlen
  have hrest : rest = [] := by
    have h2 := hperm.length_eq
    simp [hlen] at h2
    exact h2
  subst hrest
  rw [List.append_nil] at hperm hpair
  suffices hgen : ∀ res : List (QRow × ℝ), res.length = 2 →
      List.Perm res [(qRowA, 1), (qRowB, 0)] →
      List.Pairwise (fun x y : QRow × ℝ => y.2 ≤ x.2) res →
      res = [(qRowA, 1), (qRowB, 0)] by
    exact hgen _ hlen hperm hpair
  intro res hlen2 hperm2 hpair2
  obtain ⟨x, y, hxy⟩ := List.length_eq_two.mp hlen2
  rw [hxy] at hperm2 hpair2 ⊢
  have hx : x = (qRowA, 1) ∨ x = (qRowB, 0) := by
    have hm := hperm2.subset (List.mem_cons_self x [y])
    simpa using hm
  have hApair : (qRowA, (1 : ℝ)) ∈ [x, y] := hperm2.symm.subset (by simp)
  have hBpair : (qRowB, (0 : ℝ)) ∈ [x, y] := hperm2.symm.subset (by simp)
  have hy2x : y.2 ≤ x.2 := (List.pairwise_cons.mp hpair2).1 y (List.mem_cons_self y [])
  rcases hx with hx | hx
  · subst hx
    rcases (by simpa using hBpair : (qRowB, (0 : ℝ)) = (qRowA, 1) ∨ (qRowB, (0 : ℝ)) = y)
      with h | h
    · exfalso
      have hs := congrArg Prod.snd h
      norm_num at hs
    · rw [← h]
  · exfalso
    subst hx
    rcases (by simpa using hApair : (qRowA, (1 : ℝ)) = (qRowB, 0) ∨ (qRowA, (1 : ℝ)) = y)
      with h | h
    · have hs := congrArg Prod.snd h
      norm_num at hs
    · rw [← h] at hy2x
      norm_num at hy2x
